import Mathlib

/-!
Verification of the track-format encoder `img2track.py` (knitting-machine
external-storage encoder).  The definitions below are a shallow embedding of
the Python source: the `bytearray` buffer becomes a length together with a
byte-lookup function (each value a byte, `< 256` for genuine `bytearray`
contents), Python's exceptions become an explicit `Err` sum threaded with the
mutable state, and Python's slice assignment on a `bytearray` is modelled
exactly (negative indices, clamping, and insertion on an empty resolved
range).  Theorems about the claims follow the definitions.
-/

set_option maxRecDepth 10000

namespace Img2Track

/-! ## BCD / nibble codec (source: `two_bytes`, `to_bcd`, `pack_nibbles`) -/

/-- `two_bytes(num)`: big-endian 2-byte encoding; the source raises unless
`0 <= num < (1 << 16)`, modelled by `none`.  (The upper bound is stated on
`num.toNat`, which for `0 ≤ num` is the same condition as `num < 65536`; see
`twoBytes_eq_some`.) -/
def twoBytes (num : Int) : Option (List Nat) :=
  if 0 ≤ num ∧ num.toNat < 65536 then some [num.toNat / 256, num.toNat % 256] else none

theorem twoBytes_eq_some (num : Int) (h0 : 0 ≤ num) (h1 : num < 65536) :
    twoBytes num = some [num.toNat / 256, num.toNat % 256] := by
  rw [twoBytes, if_pos ⟨h0, by omega⟩]

theorem twoBytes_eq_none (num : Int) (h : num < 0 ∨ 65536 ≤ num) :
    twoBytes num = none := by
  rw [twoBytes, if_neg]
  omega

/-- Little-endian decimal digits of `n`, with enough `fuel` (computable
version of `Nat.digits 10`; see `digitsRev_eq_digits`). -/
def digitsRev : Nat → Nat → List Nat
  | 0, _ => []
  | _, 0 => []
  | fuel + 1, n + 1 => (n + 1) % 10 :: digitsRev fuel ((n + 1) / 10)

/-- `to_bcd(num, width)`: the decimal digits of `num` (`'%0*d' % (width, num)`),
zero-padded on the left to at least `width` digits. -/
def toBcd (num : Nat) (width : Nat) : List Nat :=
  let ds := if num = 0 then [0] else (digitsRev num num).reverse
  List.replicate (width - ds.length) 0 ++ ds

/-- Number of decimal digits of `n` (the length of `str(n)` in Python). -/
def digitCount (n : Nat) : Nat :=
  if n = 0 then 1 else (digitsRev n n).length

/-- Reading a list of decimal digits, most significant first (what Python's
`int` does on a string of decimal digits). -/
def parseDec (l : List Nat) : Nat :=
  l.foldl (fun a d => a * 10 + d) 0

/-- Helper for `packNibbles`: pack an (even-length) nibble list two per byte. -/
def packPairs : List Nat → List Nat
  | [] => []
  | [a] => [a * 16]
  | a :: b :: rest => (a * 16 + b) :: packPairs rest

/-- `pack_nibbles(nibbles)`: prepend a zero nibble if the length is odd, then
pack two nibbles per byte, most significant first. -/
def packNibbles (nibbles : List Nat) : List Nat :=
  packPairs (List.replicate (nibbles.length % 2) 0 ++ nibbles)

/-- `program_info(offset, rows, stitches, pattern_num)`: a directory entry,
2-byte big-endian offset followed by the BCD digits `3+3+4`, nibble-packed.
`none` models the `two_bytes` range exception. -/
def programInfo (offset : Int) (rows stitches patternNum : Nat) : Option (List Nat) :=
  (twoBytes offset).map
    (fun tb => tb ++ packNibbles (toBcd rows 3 ++ toBcd stitches 3 ++ toBcd patternNum 4))

/-! ## Track memory model (source: class `Track`) -/

/-- Constants from `Track.__init__`. -/
def trackSize : Nat := 2048
def patternOffset : Nat := 288
def availableLoc : Nat := 1792
def pgmInfoEndLoc : Nat := 1808
def pgmInfoSize : Nat := 7
def initialPatternNumber : Nat := 901

/-- The `bytearray` `self.data` of one track: its length together with the
byte at each index below the length (values at or above the length are
irrelevant; reads normalise them to 0). -/
structure Track where
  len : Nat
  get : Nat → Nat

/-- Exceptions raised inside `Track` methods. `notEnoughSpace` is the
recoverable `Error('Not enough space in track to store pattern.')`; the rest
are the fatal `BadError`s, `int()`'s `ValueError` and `two_bytes`' range
exception. -/
inductive Err where
  | notEnoughSpace
  | notSequential
  | noEmptyEntry
  | valueError
  | rangeError
deriving DecidableEq

instance : DecidableEq (Except Err Nat) := fun a b =>
  match a, b with
  | .ok x, .ok y => decidable_of_iff (x = y) (by simp)
  | .error x, .error y => decidable_of_iff (x = y) (by simp)
  | .ok _, .error _ => isFalse (by simp)
  | .error _, .ok _ => isFalse (by simp)

/-- Resolution of a (possibly negative) Python slice index over a sequence of
length `n`: negative indices count from the end, and the result is clamped to
`[0, n]`. -/
def resolveIdx (n : Nat) (i : Int) : Nat :=
  min (if i < 0 then ((n : Int) + i).toNat else i.toNat) n

namespace Track

/-- In-range read of a single byte (0 when out of range). -/
def getD (t : Track) (j : Nat) : Nat :=
  if j < t.len then t.get j else 0

/-- `data[loc : loc + k]`: the Python list slice (clamped at the end of the
buffer). -/
def slice (t : Track) (loc k : Nat) : List Nat :=
  (List.range (min k (t.len - loc))).map (fun i => t.get (loc + i))

/-- `set_bytes(location, seq)`: Python slice assignment
`data[location : location + len(seq)] = seq`.  The resolved range
`[start, stop)` is replaced by `seq`; when the resolved range is empty the
assignment inserts `seq` at `start` (growing the buffer). -/
def setBytes (t : Track) (loc : Int) (seq : List Nat) : Track :=
  let n := t.len
  let start := resolveIdx n loc
  let stop := max start (resolveIdx n (loc + seq.length))
  { len := start + seq.length + (n - stop)
    get := fun j =>
      if j < start then t.get j
      else if j < start + seq.length then seq.getD (j - start) 0
      else t.get (stop + (j - (start + seq.length))) }

/-- `get_word(loc)`: big-endian 16-bit read at `loc`. -/
def getWord (t : Track) (loc : Nat) : Nat :=
  t.getD loc * 256 + t.getD (loc + 1)

/-- `set_word(loc, word)`: store `two_bytes(word)` at `loc` (`none` models the
range exception of `two_bytes`). -/
def setWord (t : Track) (loc : Nat) (word : Int) : Option Track :=
  (twoBytes word).map (fun bs => t.setBytes (loc : Int) bs)

/-- `available_offset()`. -/
def availableOffset (t : Track) : Nat := t.getWord availableLoc

/-- `set_available(offset)`. -/
def setAvailable (t : Track) (offset : Int) : Option Track :=
  t.setWord availableLoc offset

/-- `pgm_info_end()`. -/
def pgmInfoEnd (t : Track) : Nat := t.getWord pgmInfoEndLoc

/-- `set_pgm_info_end(offset)`. -/
def setPgmInfoEnd (t : Track) (offset : Int) : Option Track :=
  t.setWord pgmInfoEndLoc offset

/-- `free_mem()` (a Python `int`, so it can be negative). -/
def freeMem (t : Track) : Int :=
  (t.pgmInfoEnd : Int) - (t.availableOffset : Int)

end Track

/-- The 14 hex digits of a 7-byte entry (`'%02X' * 7 % tuple(entry)`), as
nibble values; bytes are `< 256` in a `bytearray`. -/
def hexNibbles (entry : List Nat) : List Nat :=
  entry.flatMap (fun b => [b / 16, b % 16])

/-- Core of `pat_num`: format the 7 entry bytes as 14 hex digits and apply
`int` to the last 3 of them.  `none` models both the `TypeError` when the
slice is shorter than 7 bytes and the `ValueError` when a nibble is not a
decimal digit. -/
def entryPatNumHex (entry : List Nat) : Option Nat :=
  if entry.length = pgmInfoSize then
    let last3 := (hexNibbles entry).drop 11
    if last3.all (· < 10) then some (parseDec last3) else none
  else none

namespace Track

/-- `pat_num(loc)`: pattern number of the info entry at `loc`. -/
def patNum (t : Track) (loc : Nat) : Option Nat :=
  entryPatNumHex (t.slice loc pgmInfoSize)

/-- `add_pgm_entry(pat_num)`: append a new empty program info entry at the
current end of the program info region. -/
def addPgmEntry (t : Track) (patNum : Nat) : Option Track := do
  let info ← programInfo 0 0 0 patNum
  let offset := t.pgmInfoEnd
  let t1 := t.setBytes (-(offset : Int)) info
  t1.setPgmInfoEnd ((offset : Int) - info.length)

end Track

/-- `Track.__init__`: a 2048-byte zero buffer, the two boundary words, and one
empty program info entry for pattern number 901. -/
def trackInit : Option Track := do
  let t0 : Track := ⟨trackSize, fun _ => 0⟩
  let t1 ← t0.setAvailable (patternOffset : Int)
  let t2 ← t1.setPgmInfoEnd (trackSize : Int)
  t2.addPgmEntry initialPatternNumber

/-- The freshly constructed track (the `__init__` steps all succeed). -/
def initTrack : Track := trackInit.getD ⟨0, fun _ => 0⟩

/-- The loop header `range(0, info_end, 7)` of `add_pattern` (empty when
`info_end <= 0`). -/
def scanLocs (infoEnd : Int) : List Nat :=
  (List.range ((infoEnd.toNat + 6) / 7)).map (· * 7)

namespace Track

/-- The `for`/`else` scan of `add_pattern`: walk the entry locations, checking
sequential numbering, until the first empty entry (word 0). -/
def findEmpty (t : Track) : List Nat → Nat → Except Err (Nat × Nat)
  | [], _ => .error .noEmptyEntry
  | loc :: rest, pnum =>
    match t.patNum loc with
    | none => .error .valueError
    | some p =>
      if p ≠ pnum then .error .notSequential
      else if t.getWord loc = 0 then .ok (loc, pnum)
      else t.findEmpty rest (pnum + 1)

/-- Tail of `add_pattern` after the pattern bytes have been stored (the
"Maintain empty last entry" part): `t` is the track before the call, `t3` the
track after the data stores; the `info_end` of the comparison
`loc + len(info) == info_end` is the one computed from `t` at the top of the
method. -/
def addPatternTail (t t3 : Track) (loc infoLen patternNum : Nat) :
    Except Err Nat × Track :=
  if (loc : Int) + infoLen = (trackSize : Int) - (t.pgmInfoEnd : Int) then
    match t3.addPgmEntry (patternNum + 1) with
    | none => (.error .rangeError, t3)
    | some t4 => (.ok patternNum, t4)
  else (.ok patternNum, t3)

/-- Middle of `add_pattern` once the empty directory slot `loc` and the new
`patternNum` are known ("Store pattern info entry" and "Store pattern data"):
write the entry at `loc`, append the pattern bytes, advance
`available_offset` by `len(pattern) + 1`, then maintain the empty last
entry. -/
def addPatternAt (t : Track) (pattern : List Nat)
    (nrows nstitches loc patternNum : Nat) : Except Err Nat × Track :=
  match programInfo (t.availableOffset : Int) nrows nstitches patternNum with
  | none => (.error .rangeError, t)
  | some info =>
    let t1 := t.setBytes (loc : Int) info
    let offset2 := t.availableOffset + pattern.length
    let t2 := t1.setBytes (-(offset2 : Int)) pattern
    match t2.setAvailable ((offset2 : Int) + 1) with
    | none => (.error .rangeError, t2)
    | some t3 => addPatternTail t t3 loc info.length patternNum

/-- `add_pattern(pattern, nrows, nstitches)`: returns the assigned pattern
number (or the exception) together with the state of the track at that point
(unchanged when the exception is raised before any mutation). -/
def addPattern (t : Track) (pattern : List Nat) (nrows nstitches : Nat) :
    Except Err Nat × Track :=
  if (pattern.length : Int) > t.freeMem then (.error .notEnoughSpace, t)
  else
    match t.findEmpty (scanLocs ((trackSize : Int) - (t.pgmInfoEnd : Int)))
        initialPatternNumber with
    | .error e => (.error e, t)
    | .ok (loc, patternNum) => t.addPatternAt pattern nrows nstitches loc patternNum

end Track

/-! ## Sector writer (source: `Track.write`) -/

/-- The 12-byte content of an `nn.id` file:
`pack_nibbles(to_bcd(track_num, 2)) + bytearray(11)`. -/
def sectorId (trackNum : Nat) : List Nat :=
  packNibbles (toBcd trackNum 2) ++ List.replicate 11 0

/-- The four files produced by `Track.write`: `N.dat`, `(N+1).dat`, `N.id`,
`(N+1).id` with `N = sector`. -/
structure TrackFiles where
  sector : Nat
  dat0 : List Nat
  dat1 : List Nat
  id0 : List Nat
  id1 : List Nat
deriving DecidableEq

namespace Track

/-- `write(sector_path, track_num)`: split the buffer in two 1024-byte halves
and emit the two id files. -/
def write (t : Track) (trackNum : Nat) : TrackFiles :=
  let sectorNum := (trackNum - 1) * 2
  let halfsize := trackSize / 2
  ⟨sectorNum, t.slice 0 halfsize, t.slice halfsize halfsize,
    sectorId trackNum, sectorId trackNum⟩

end Track

/-! ## Image encoder (source: `encode_image`, after the resize steps) -/

/-- Per-pixel bit classification `'10'[pixel > 0]`: a dark pixel
(intensity 0) becomes bit 1, any brighter pixel bit 0. -/
def pixelBits (imgdata : List Nat) : List Nat :=
  imgdata.map (fun p => if p > 0 then 0 else 1)

/-- `(- nstitches) % 4` in Python: number of zero bits prepended to each row
to pad it to a nibble boundary. -/
def rowPad (nstitches : Nat) : Nat := (4 - nstitches % 4) % 4

/-- The `for irow in range(0, len(imgbits), nstitches)` loop: emit each row of
`nstitches` bits preceded by the row padding.  The recursion is on the row
count; it agrees with the Python loop when the bit list has exactly
`nrows * nstitches` entries and `nstitches > 0`. -/
def padRows (nstitches : Nat) : Nat → List Nat → List Nat
  | 0, _ => []
  | r + 1, bs =>
    List.replicate (rowPad nstitches) 0 ++ bs.take nstitches ++
      padRows nstitches r (bs.drop nstitches)

/-- `int(bits[i:i+8], 2)` over successive 8-bit chunks (`range(0, len, 8)`):
pack the bits into bytes, most significant bit first; a final chunk shorter
than 8 bits is read as-is. -/
def packBits : List Nat → List Nat
  | b0 :: b1 :: b2 :: b3 :: b4 :: b5 :: b6 :: b7 :: rest =>
    [b0, b1, b2, b3, b4, b5, b6, b7].foldl (fun a b => 2 * a + b) 0 :: packBits rest
  | [] => []
  | bs => [bs.foldl (fun a b => 2 * a + b) 0]

/-- The encoding core of `encode_image` (after the external resizes): build
the padded bit sequence, left-pad it to a byte boundary, pack, and append the
blank memo block of `(nrows + 1) // 2` zero bytes. -/
def encodeImageCore (imgdata : List Nat) (nrows nstitches : Nat) :
    List Nat × Nat × Nat :=
  let imgbits := pixelBits imgdata
  let bits := padRows nstitches nrows imgbits
  let full := List.replicate ((8 - bits.length % 8) % 8) 0 ++ bits
  let imgbytes := packBits full
  let memo := List.replicate ((nrows + 1) / 2) 0
  (imgbytes ++ memo, nrows, nstitches)

/-! ## Spec-side definitions used by the claims -/

/-- Modelled from the spec: §3 "Directory Entry" row-count field decode — the
three BCD digits following the 16-bit offset (high/low nibble of byte 2, high
nibble of byte 3). -/
def entryRows (entry : List Nat) : Nat :=
  entry.getD 2 0 / 16 * 100 + entry.getD 2 0 % 16 * 10 + entry.getD 3 0 / 16

/-- Modelled from the spec: §3 "Directory Entry" stitch-count field decode —
the next three BCD digits (low nibble of byte 3, both nibbles of byte 4). -/
def entryStitches (entry : List Nat) : Nat :=
  entry.getD 3 0 % 16 * 100 + entry.getD 4 0 / 16 * 10 + entry.getD 4 0 % 16

/-- Modelled from the spec: §9 "direct structured nibble decode of the last
two bytes' low/high nibbles into a 4-digit number" — the structured
pattern-number decode to compare with `pat_num`'s hex-text quirk. -/
def entryPatNum4 (entry : List Nat) : Nat :=
  entry.getD 5 0 / 16 * 1000 + entry.getD 5 0 % 16 * 100 +
    entry.getD 6 0 / 16 * 10 + entry.getD 6 0 % 16

/-- Modelled from the spec: §4.5 / the claim's wording of the image-encoding
procedure (per-row padded bit rows, joined, left-padded to a byte boundary,
packed MSB-first, memo appended). -/
def specEncode (imgdata : List Nat) (nrows nstitches : Nat) : List Nat :=
  let rows := (List.range nrows).map
    (fun r => List.replicate (rowPad nstitches) 0 ++
      ((pixelBits imgdata).drop (r * nstitches)).take nstitches)
  let allBits := rows.flatten
  let full := List.replicate ((8 - allBits.length % 8) % 8) 0 ++ allBits
  packBits full ++ List.replicate ((nrows + 1) / 2) 0

/-! ## Lemmas on the BCD codec -/

theorem digitsRev_eq_digits : ∀ fuel n, n ≤ fuel → digitsRev fuel n = Nat.digits 10 n
  | 0, 0, _ => by simp [digitsRev]
  | 0, _ + 1, h => absurd h (by omega)
  | _ + 1, 0, _ => by simp [digitsRev]
  | fuel + 1, n + 1, _ => by
    rw [digitsRev, Nat.digits_def' (by norm_num : 1 < 10) (Nat.succ_pos n),
      digitsRev_eq_digits fuel ((n + 1) / 10) (by omega)]

theorem digitCount_eq (n : Nat) :
    digitCount n = if n = 0 then 1 else (Nat.digits 10 n).length := by
  rw [digitCount, digitsRev_eq_digits n n le_rfl]

theorem digitCount_pos (n : Nat) : 0 < digitCount n := by
  rw [digitCount_eq]
  split
  · omega
  · rename_i h
    have hne : Nat.digits 10 n ≠ [] := Nat.digits_ne_nil_iff_ne_zero.mpr h
    cases hd : Nat.digits 10 n with
    | nil => exact absurd hd hne
    | cons a l => simp [hd]

theorem digitCount_le_of_lt_pow {n k : Nat} (hk : 0 < k) (h : n < 10 ^ k) :
    digitCount n ≤ k := by
  rw [digitCount_eq]
  split
  · omega
  · rename_i hn
    rw [Nat.digits_len 10 n (by norm_num) hn]
    have := (Nat.lt_pow_iff_log_lt (by norm_num : 1 < 10) hn).mp h
    omega

theorem toBcd_eq_pad (n w : Nat) :
    toBcd n w = List.replicate (w - digitCount n) 0 ++
      (if n = 0 then [0] else (Nat.digits 10 n).reverse) := by
  rw [toBcd, digitCount_eq, digitsRev_eq_digits n n le_rfl]
  split <;> simp

theorem toBcd_length (n w : Nat) : (toBcd n w).length = max w (digitCount n) := by
  rw [toBcd_eq_pad]
  have h1 : (if n = 0 then [0] else (Nat.digits 10 n).reverse).length = digitCount n := by
    rw [digitCount_eq]; split <;> simp
  have := digitCount_pos n
  simp only [List.length_append, List.length_replicate, h1]
  omega

theorem toBcd_digit_lt (n w : Nat) : ∀ d ∈ toBcd n w, d < 10 := by
  rw [toBcd_eq_pad]
  intro d hd
  rcases List.mem_append.mp hd with h | h
  · have := List.eq_of_mem_replicate h
    omega
  · split at h
    · simp at h; omega
    · exact Nat.digits_lt_base (by norm_num) (List.mem_reverse.mp h)

theorem parseDec_foldl (l : List Nat) (a : Nat) :
    l.foldl (fun a d => a * 10 + d) a = a * 10 ^ l.length + Nat.ofDigits 10 l.reverse := by
  induction l generalizing a with
  | nil => simp [Nat.ofDigits_nil]
  | cons h t ih =>
    rw [List.foldl_cons, ih, List.reverse_cons, Nat.ofDigits_append]
    simp only [List.length_cons, List.length_reverse, Nat.ofDigits_cons, Nat.ofDigits_nil]
    ring

theorem foldl_replicate_zero (k : Nat) :
    (List.replicate k 0).foldl (fun a d => a * 10 + d) 0 = 0 := by
  induction k with
  | zero => simp
  | succ k ih => simpa [List.replicate_succ] using ih

theorem parseDec_replicate_zero (k : Nat) (l : List Nat) :
    parseDec (List.replicate k 0 ++ l) = parseDec l := by
  rw [parseDec, List.foldl_append, foldl_replicate_zero, parseDec]

theorem parseDec_toBcd (n w : Nat) : parseDec (toBcd n w) = n := by
  rw [toBcd_eq_pad, parseDec_replicate_zero]
  split
  · simp [parseDec]; omega
  · rw [parseDec, parseDec_foldl, List.reverse_reverse]
    simp [Nat.ofDigits_digits]

/-- Explicit form of a 2-digit `to_bcd` result. -/
theorem toBcd_two (n : Nat) (h : n ≤ 99) :
    ∃ d0 d1, toBcd n 2 = [d0, d1] ∧ d0 < 10 ∧ d1 < 10 ∧ d0 * 10 + d1 = n := by
  have hl : (toBcd n 2).length = 2 := by
    rw [toBcd_length]
    have h1 := @digitCount_le_of_lt_pow n 2 (by omega) (by omega)
    have h2 := digitCount_pos n
    omega
  rcases he : toBcd n 2 with _ | ⟨d0, _ | ⟨d1, _ | _⟩⟩ <;> rw [he] at hl <;> simp at hl
  have hp := parseDec_toBcd n 2
  rw [he] at hp
  simp only [parseDec, List.foldl_cons, List.foldl_nil] at hp
  have hb := toBcd_digit_lt n 2
  rw [he] at hb
  exact ⟨d0, d1, rfl, hb d0 (by simp), hb d1 (by simp), by omega⟩

/-- Explicit form of a 3-digit `to_bcd` result. -/
theorem toBcd_three (n : Nat) (h : n ≤ 999) :
    ∃ d0 d1 d2, toBcd n 3 = [d0, d1, d2] ∧ d0 < 10 ∧ d1 < 10 ∧ d2 < 10 ∧
      d0 * 100 + d1 * 10 + d2 = n := by
  have hl : (toBcd n 3).length = 3 := by
    rw [toBcd_length]
    have h1 := @digitCount_le_of_lt_pow n 3 (by omega) (by omega)
    have h2 := digitCount_pos n
    omega
  rcases he : toBcd n 3 with _ | ⟨d0, _ | ⟨d1, _ | ⟨d2, _ | _⟩⟩⟩ <;>
    rw [he] at hl <;> simp at hl
  have hp := parseDec_toBcd n 3
  rw [he] at hp
  simp only [parseDec, List.foldl_cons, List.foldl_nil] at hp
  have hb := toBcd_digit_lt n 3
  rw [he] at hb
  exact ⟨d0, d1, d2, rfl, hb d0 (by simp), hb d1 (by simp), hb d2 (by simp), by omega⟩

/-- Explicit form of a 4-digit `to_bcd` result. -/
theorem toBcd_four (n : Nat) (h : n ≤ 9999) :
    ∃ d0 d1 d2 d3, toBcd n 4 = [d0, d1, d2, d3] ∧ d0 < 10 ∧ d1 < 10 ∧ d2 < 10 ∧
      d3 < 10 ∧ d0 * 1000 + d1 * 100 + d2 * 10 + d3 = n := by
  have hl : (toBcd n 4).length = 4 := by
    rw [toBcd_length]
    have h1 := @digitCount_le_of_lt_pow n 4 (by omega) (by omega)
    have h2 := digitCount_pos n
    omega
  rcases he : toBcd n 4 with _ | ⟨d0, _ | ⟨d1, _ | ⟨d2, _ | ⟨d3, _ | _⟩⟩⟩⟩ <;>
    rw [he] at hl <;> simp at hl
  have hp := parseDec_toBcd n 4
  rw [he] at hp
  simp only [parseDec, List.foldl_cons, List.foldl_nil] at hp
  have hb := toBcd_digit_lt n 4
  rw [he] at hb
  exact ⟨d0, d1, d2, d3, rfl, hb d0 (by simp), hb d1 (by simp), hb d2 (by simp),
    hb d3 (by simp), by omega⟩

/-! ## Lemmas on the track memory model -/

namespace Track

/-- Proof-layer normal form of an in-bounds `setBytes`: overwrite the window
`[a, a + seq.length)`, leaving length and all other bytes unchanged. -/
def writeAt (t : Track) (a : Nat) (seq : List Nat) : Track :=
  ⟨t.len, fun j =>
    if j < a then t.get j
    else if j < a + seq.length then seq.getD (j - a) 0
    else t.get j⟩

theorem len_writeAt (t : Track) (a : Nat) (seq : List Nat) :
    (t.writeAt a seq).len = t.len := rfl

theorem getD_writeAt (t : Track) (a : Nat) (seq : List Nat)
    (h : a + seq.length ≤ t.len) (j : Nat) :
    (t.writeAt a seq).getD j =
      if a ≤ j ∧ j < a + seq.length then seq.getD (j - a) 0 else t.getD j := by
  simp only [writeAt, getD]
  split_ifs <;> first
  | rfl
  | omega

theorem setBytes_eq_writeAt_of_resolve (t : Track) (loc : Int) (seq : List Nat) (a : Nat)
    (ha1 : resolveIdx t.len loc = a)
    (ha2 : resolveIdx t.len (loc + seq.length) = a + seq.length)
    (hle : a + seq.length ≤ t.len) :
    t.setBytes loc seq = t.writeAt a seq := by
  simp only [setBytes, writeAt, ha1, ha2]
  have hmax : max a (a + seq.length) = a + seq.length := by omega
  rw [hmax]
  congr 1
  · omega
  · funext j
    split_ifs <;> first
    | rfl
    | omega
    | (congr 1; omega)

theorem resolveIdx_nat (n i : Nat) (h : i ≤ n) : resolveIdx n (i : Int) = i := by
  simp only [resolveIdx]
  rw [if_neg (by omega)]
  omega

theorem resolveIdx_neg (n o : Nat) (h0 : 0 < o) (h1 : o ≤ n) :
    resolveIdx n (-(o : Int)) = n - o := by
  simp only [resolveIdx]
  rw [if_pos (by omega)]
  omega

/-- `set_bytes` at a non-negative in-bounds location. -/
theorem setBytes_nat (t : Track) (loc : Nat) (seq : List Nat)
    (h : loc + seq.length ≤ t.len) :
    t.setBytes (loc : Int) seq = t.writeAt loc seq := by
  apply setBytes_eq_writeAt_of_resolve t _ seq loc
  · exact resolveIdx_nat _ _ (by omega)
  · have : (loc : Int) + (seq.length : Int) = ((loc + seq.length : Nat) : Int) := by
      push_cast; ring
    rw [this]
    exact resolveIdx_nat _ _ (by omega)
  · exact h

/-- `set_bytes` at a negative location `-o` (strictly more than `seq` needs
before the end of the buffer, so the write replaces in place). -/
theorem setBytes_neg (t : Track) (o : Nat) (seq : List Nat)
    (h0 : seq.length < o) (h1 : o ≤ t.len) :
    t.setBytes (-(o : Int)) seq = t.writeAt (t.len - o) seq := by
  apply setBytes_eq_writeAt_of_resolve t _ seq (t.len - o)
  · exact resolveIdx_neg _ _ (by omega) h1
  · have : -(o : Int) + (seq.length : Int) = -(((o - seq.length : Nat)) : Int) := by
      omega
    rw [this, resolveIdx_neg _ _ (by omega) (by omega)]
    omega
  · omega

theorem getD_writeAt_out (t : Track) (a : Nat) (seq : List Nat)
    (h : a + seq.length ≤ t.len) (j : Nat) (hout : j < a ∨ a + seq.length ≤ j) :
    (t.writeAt a seq).getD j = t.getD j := by
  rw [getD_writeAt t a seq h j, if_neg (by omega)]

theorem getD_writeAt_in (t : Track) (a : Nat) (seq : List Nat)
    (h : a + seq.length ≤ t.len) (i : Nat) (hi : i < seq.length) :
    (t.writeAt a seq).getD (a + i) = seq.getD i 0 := by
  rw [getD_writeAt t a seq h _, if_pos (by omega)]
  congr 1
  omega

theorem getWord_writeAt_out (t : Track) (a : Nat) (seq : List Nat)
    (h : a + seq.length ≤ t.len) (w : Nat) (hout : w + 2 ≤ a ∨ a + seq.length ≤ w) :
    (t.writeAt a seq).getWord w = t.getWord w := by
  rw [getWord, getWord, getD_writeAt_out t a seq h w (by omega),
    getD_writeAt_out t a seq h (w + 1) (by omega)]

theorem setWord_some (t : Track) (loc : Nat) (w : Int) (h0 : 0 ≤ w) (h1 : w < 65536)
    (hloc : loc + 2 ≤ t.len) :
    t.setWord loc w = some (t.writeAt loc [w.toNat / 256, w.toNat % 256]) := by
  rw [setWord, twoBytes_eq_some _ h0 h1, Option.map_some']
  congr 1
  exact t.setBytes_nat loc _ (by simpa using hloc)

theorem getWord_writeAt_word (t : Track) (loc v : Nat) (h : loc + 2 ≤ t.len) :
    (t.writeAt loc [v / 256, v % 256]).getWord loc = v := by
  have h0 : (t.writeAt loc [v / 256, v % 256]).getD loc = v / 256 := by
    have := getD_writeAt_in t loc [v / 256, v % 256] (by simpa using h) 0 (by simp)
    simpa using this
  have h1 : (t.writeAt loc [v / 256, v % 256]).getD (loc + 1) = v % 256 := by
    have := getD_writeAt_in t loc [v / 256, v % 256] (by simpa using h) 1 (by simp)
    simpa using this
  rw [getWord, h0, h1]
  omega

theorem slice_eq_map_getD (t : Track) (loc k : Nat) (h : loc + k ≤ t.len) :
    t.slice loc k = (List.range k).map (fun i => t.getD (loc + i)) := by
  rw [slice, min_eq_left (by omega)]
  apply List.map_congr_left
  intro i hi
  rw [List.mem_range] at hi
  rw [getD, if_pos (by omega)]

theorem map_getD_range_eq_self (l : List Nat) :
    (List.range l.length).map (fun i => l.getD i 0) = l := by
  apply List.ext_getElem
  · simp
  · intro i h1 h2
    simp only [List.getElem_map, List.getElem_range]
    rw [List.getD_eq_getElem l 0 h2]

theorem slice_writeAt_self (t : Track) (a : Nat) (seq : List Nat)
    (h : a + seq.length ≤ t.len) :
    (t.writeAt a seq).slice a seq.length = seq := by
  rw [slice_eq_map_getD _ a seq.length (by rw [len_writeAt]; omega)]
  calc (List.range seq.length).map (fun i => (t.writeAt a seq).getD (a + i))
      = (List.range seq.length).map (fun i => seq.getD i 0) := by
        apply List.map_congr_left
        intro i hi
        rw [List.mem_range] at hi
        exact getD_writeAt_in t a seq h i hi
    _ = seq := map_getD_range_eq_self seq

theorem slice_congr (t t' : Track) (loc k : Nat)
    (hl : loc + k ≤ t.len) (hl' : loc + k ≤ t'.len)
    (h : ∀ i, i < k → t.getD (loc + i) = t'.getD (loc + i)) :
    t.slice loc k = t'.slice loc k := by
  rw [slice_eq_map_getD t loc k hl, slice_eq_map_getD t' loc k hl']
  apply List.map_congr_left
  intro i hi
  rw [List.mem_range] at hi
  exact h i hi

theorem slice_writeAt_out (t : Track) (a : Nat) (seq : List Nat)
    (h : a + seq.length ≤ t.len) (loc k : Nat) (hl : loc + k ≤ t.len)
    (hout : loc + k ≤ a ∨ a + seq.length ≤ loc) :
    (t.writeAt a seq).slice loc k = t.slice loc k := by
  apply slice_congr
  · rw [len_writeAt]; exact hl
  · exact hl
  · intro i hi
    exact getD_writeAt_out t a seq h (loc + i) (by omega)

theorem getWord_writeAt_start (t : Track) (a : Nat) (info : List Nat)
    (h : a + info.length ≤ t.len) (h2 : 2 ≤ info.length) :
    (t.writeAt a info).getWord a = info.getD 0 0 * 256 + info.getD 1 0 := by
  have g0 : (t.writeAt a info).getD a = info.getD 0 0 := by
    have := getD_writeAt_in t a info h 0 (by omega)
    simpa using this
  have g1 := getD_writeAt_in t a info h 1 (by omega)
  rw [getWord, g0, g1]

theorem patNum_congr (t t' : Track) (loc : Nat)
    (hl : loc + pgmInfoSize ≤ t.len) (hl' : loc + pgmInfoSize ≤ t'.len)
    (h : ∀ i, i < pgmInfoSize → t.getD (loc + i) = t'.getD (loc + i)) :
    t.patNum loc = t'.patNum loc := by
  rw [patNum, patNum, slice_eq_map_getD t loc _ hl, slice_eq_map_getD t' loc _ hl']
  congr 1
  apply List.map_congr_left
  intro i hi
  rw [List.mem_range] at hi
  exact h i hi

theorem patNum_writeAt_out (t : Track) (a : Nat) (seq : List Nat)
    (h : a + seq.length ≤ t.len) (loc : Nat) (hl : loc + 7 ≤ t.len)
    (hout : loc + 7 ≤ a ∨ a + seq.length ≤ loc) :
    (t.writeAt a seq).patNum loc = t.patNum loc := by
  rw [patNum, patNum, slice_writeAt_out t a seq h loc pgmInfoSize
    (by simp only [pgmInfoSize]; omega) (by simp only [pgmInfoSize]; omega)]

theorem patNum_writeAt_self (t : Track) (a : Nat) (info : List Nat)
    (hlen : info.length = pgmInfoSize) (h : a + info.length ≤ t.len) :
    (t.writeAt a info).patNum a = entryPatNumHex info := by
  rw [patNum]
  have := slice_writeAt_self t a info h
  rw [hlen] at this
  rw [this]

end Track

/-! ## Lemmas on `program_info` entries -/

theorem parseDec_three (a b c : Nat) : parseDec [a, b, c] = a * 100 + b * 10 + c := by
  simp only [parseDec, List.foldl_cons, List.foldl_nil]
  ring

theorem packNibbles_ten (d0 d1 d2 d3 d4 d5 d6 d7 d8 d9 : Nat) :
    packNibbles [d0, d1, d2, d3, d4, d5, d6, d7, d8, d9] =
      [d0 * 16 + d1, d2 * 16 + d3, d4 * 16 + d5, d6 * 16 + d7, d8 * 16 + d9] := by
  simp [packNibbles, packPairs]

theorem entryPatNumHex_explicit (b0 b1 b2 b3 b4 b5 b6 : Nat)
    (h5 : b5 % 16 < 10) (h6h : b6 / 16 < 10) (h6l : b6 % 16 < 10) :
    entryPatNumHex [b0, b1, b2, b3, b4, b5, b6] =
      some (b5 % 16 * 100 + b6 / 16 * 10 + b6 % 16) := by
  rw [entryPatNumHex]
  rw [if_pos (show ([b0, b1, b2, b3, b4, b5, b6] : List Nat).length = pgmInfoSize by
    simp [pgmInfoSize])]
  have hdrop : (hexNibbles [b0, b1, b2, b3, b4, b5, b6]).drop 11 =
      [b5 % 16, b6 / 16, b6 % 16] := by
    simp [hexNibbles]
  rw [hdrop]
  rw [if_pos (show ([b5 % 16, b6 / 16, b6 % 16].all (· < 10)) = true by
    simp only [List.all_cons, List.all_nil, Bool.and_eq_true, decide_eq_true_eq]
    exact ⟨h5, h6h, h6l, trivial⟩)]
  rw [parseDec_three]

/-- The directory entry built by `program_info` for in-range fields: its
explicit bytes and how the decoders read it back. -/
theorem programInfo_spec (o r s p : Nat) (ho : o < 65536) (hr : r ≤ 999)
    (hs : s ≤ 999) (hp : p ≤ 9999) :
    ∃ info, programInfo (o : Int) r s p = some info ∧ info.length = 7 ∧
      info.getD 0 0 = o / 256 ∧ info.getD 1 0 = o % 256 ∧
      entryRows info = r ∧ entryStitches info = s ∧ entryPatNum4 info = p ∧
      entryPatNumHex info = some (p % 1000) ∧ (∀ b ∈ info, b < 256) := by
  obtain ⟨r0, r1, r2, her, hr0, hr1, hr2, hrv⟩ := toBcd_three r hr
  obtain ⟨s0, s1, s2, hes, hs0, hs1, hs2, hsv⟩ := toBcd_three s hs
  obtain ⟨p0, p1, p2, p3, hep, hp0, hp1, hp2, hp3, hpv⟩ := toBcd_four p hp
  refine ⟨[o / 256, o % 256, r0 * 16 + r1, r2 * 16 + s0, s1 * 16 + s2,
    p0 * 16 + p1, p2 * 16 + p3], ?_, rfl, rfl, rfl, ?_, ?_, ?_, ?_, ?_⟩
  · rw [programInfo, twoBytes_eq_some _ (by omega) (by omega)]
    rw [Option.map_some']
    congr 1
    rw [her, hes, hep]
    have hto : (o : Int).toNat = o := by omega
    rw [hto]
    have happ : ([r0, r1, r2] ++ [s0, s1, s2] ++ [p0, p1, p2, p3] : List Nat) =
        [r0, r1, r2, s0, s1, s2, p0, p1, p2, p3] := by simp
    rw [happ, packNibbles_ten]
    rfl
  · rw [entryRows]
    have g2 : List.getD [o / 256, o % 256, r0 * 16 + r1, r2 * 16 + s0, s1 * 16 + s2,
      p0 * 16 + p1, p2 * 16 + p3] 2 0 = r0 * 16 + r1 := rfl
    have g3 : List.getD [o / 256, o % 256, r0 * 16 + r1, r2 * 16 + s0, s1 * 16 + s2,
      p0 * 16 + p1, p2 * 16 + p3] 3 0 = r2 * 16 + s0 := rfl
    rw [g2, g3]
    omega
  · rw [entryStitches]
    have g3 : List.getD [o / 256, o % 256, r0 * 16 + r1, r2 * 16 + s0, s1 * 16 + s2,
      p0 * 16 + p1, p2 * 16 + p3] 3 0 = r2 * 16 + s0 := rfl
    have g4 : List.getD [o / 256, o % 256, r0 * 16 + r1, r2 * 16 + s0, s1 * 16 + s2,
      p0 * 16 + p1, p2 * 16 + p3] 4 0 = s1 * 16 + s2 := rfl
    rw [g3, g4]
    omega
  · rw [entryPatNum4]
    have g5 : List.getD [o / 256, o % 256, r0 * 16 + r1, r2 * 16 + s0, s1 * 16 + s2,
      p0 * 16 + p1, p2 * 16 + p3] 5 0 = p0 * 16 + p1 := rfl
    have g6 : List.getD [o / 256, o % 256, r0 * 16 + r1, r2 * 16 + s0, s1 * 16 + s2,
      p0 * 16 + p1, p2 * 16 + p3] 6 0 = p2 * 16 + p3 := rfl
    rw [g5, g6]
    omega
  · rw [entryPatNumHex_explicit _ _ _ _ _ _ _ (by omega) (by omega) (by omega)]
    congr 1
    omega
  · intro b hb
    simp only [List.mem_cons, List.not_mem_nil, or_false] at hb
    rcases hb with rfl | rfl | rfl | rfl | rfl | rfl | rfl <;> omega

/-! ## Reachable-state invariant and the behaviour of `add_pattern` -/

/-- Well-formedness of a track holding `n` patterns: the directory region
consists of `n + 1` seven-byte entries — entries `0 .. n-1` non-empty with
sequential pattern numbers `901 .. 900+n`, entry `n` the trailing empty one —
and the two boundary words are in their working ranges.  `trackInit` satisfies
`WF _ 0` and every successful `add_pattern` preserves `WF`. -/
structure WF (t : Track) (n : Nat) : Prop where
  hlen : t.len = 2048
  hpgm : 7 * (n + 1) + t.pgmInfoEnd = 2048
  hpgmLB : 281 ≤ t.pgmInfoEnd
  havailLB : 288 ≤ t.availableOffset
  havailUB : t.availableOffset ≤ 2042
  hmid : ∀ i, i < n → t.patNum (7 * i) = some (901 + i) ∧ t.getWord (7 * i) ≠ 0
  hlast : t.patNum (7 * n) = some ((901 + n) % 1000)
  hempty : t.getWord (7 * n) = 0

theorem scanLocs_eq (n : Nat) :
    scanLocs ((7 * (n + 1) : Nat) : Int) = (List.range' 0 (n + 1)).map (fun i => 7 * i) := by
  rw [scanLocs]
  have h1 : ((7 * (n + 1) : Nat) : Int).toNat = 7 * (n + 1) := by omega
  have h2 : (7 * (n + 1) + 6) / 7 = n + 1 := by omega
  rw [h1, h2, List.range_eq_range']
  apply List.map_congr_left
  intro i _
  exact Nat.mul_comm i 7

/-- Running down the directory scan of `add_pattern` over a well-formed
directory: it reaches the trailing empty entry, whose stored (3-nibble)
pattern number must agree with the expected sequential number. -/
theorem findEmpty_go (t : Track) (n : Nat)
    (hmid : ∀ i, i < n → t.patNum (7 * i) = some (901 + i) ∧ t.getWord (7 * i) ≠ 0)
    (hlast : t.patNum (7 * n) = some ((901 + n) % 1000))
    (hempty : t.getWord (7 * n) = 0) :
    ∀ d j, j + d = n →
      t.findEmpty ((List.range' j (d + 1)).map (fun i => 7 * i)) (901 + j) =
        if (901 + n) % 1000 = 901 + n then .ok (7 * n, 901 + n)
        else .error .notSequential
  | 0, j, hj => by
    have hjn : j = n := by omega
    subst hjn
    have hr : (List.range' j (0 + 1)).map (fun i => 7 * i) = [7 * j] := by
      simp [List.range'_one]
    rw [hr, Track.findEmpty, hlast]
    dsimp only
    by_cases hm : (901 + j) % 1000 = 901 + j
    · simp [hm, hempty]
    · simp [hm]
  | d + 1, j, hj => by
    have hr : (List.range' j (d + 1 + 1)).map (fun i => 7 * i) =
        7 * j :: (List.range' (j + 1) (d + 1)).map (fun i => 7 * i) := by
      rw [List.range'_succ, List.map_cons]
    have hjn : j < n := by omega
    rw [hr, Track.findEmpty, (hmid j hjn).1]
    dsimp only
    rw [if_neg (by omega : ¬ (901 + j ≠ 901 + j)), if_neg (hmid j hjn).2]
    have h901 : 901 + j + 1 = 901 + (j + 1) := by omega
    rw [h901]
    exact findEmpty_go t n hmid hlast hempty d (j + 1) (by omega)

/-- The directory scan of `add_pattern`, on a well-formed directory, in terms
of the stored entries. -/
theorem findEmpty_scan (t : Track) (n : Nat)
    (hpgm : 7 * (n + 1) + t.pgmInfoEnd = 2048)
    (hmid : ∀ i, i < n → t.patNum (7 * i) = some (901 + i) ∧ t.getWord (7 * i) ≠ 0)
    (hlast : t.patNum (7 * n) = some ((901 + n) % 1000))
    (hempty : t.getWord (7 * n) = 0) :
    t.findEmpty (scanLocs ((trackSize : Int) - (t.pgmInfoEnd : Int)))
      initialPatternNumber =
      if (901 + n) % 1000 = 901 + n then .ok (7 * n, 901 + n)
      else .error .notSequential := by
  have hinfoEnd : (trackSize : Int) - (t.pgmInfoEnd : Int) = ((7 * (n + 1) : Nat) : Int) := by
    simp only [trackSize]
    omega
  rw [hinfoEnd, scanLocs_eq n]
  have hgo := findEmpty_go t n hmid hlast hempty n 0 (by omega)
  simpa [initialPatternNumber] using hgo

/-- Whenever a run of the middle stage of `add_pattern` returns `ok`, the
returned number is the `patternNum` passed in. -/
theorem addPatternAt_num (t : Track) (pat : List Nat) (r s loc q p : Nat) (t' : Track)
    (h : t.addPatternAt pat r s loc q = (.ok p, t')) : p = q := by
  rw [Track.addPatternAt] at h
  cases hpi : programInfo (t.availableOffset : Int) r s q with
  | none => rw [hpi] at h; simp at h
  | some info =>
    rw [hpi] at h
    dsimp only at h
    cases hsa : (((t.setBytes (loc : Int) info)).setBytes
        (-(((t.availableOffset + pat.length : Nat)) : Int)) pat).setAvailable
        (((t.availableOffset + pat.length : Nat) : Int) + 1) with
    | none => rw [hsa] at h; simp at h
    | some t3 =>
      rw [hsa] at h
      dsimp only at h
      rw [Track.addPatternTail] at h
      split at h
      · cases hae : t3.addPgmEntry (q + 1) with
        | none => rw [hae] at h; simp at h
        | some t4 =>
          rw [hae] at h
          dsimp only at h
          simp only [Prod.mk.injEq, Except.ok.injEq] at h
          exact h.1.symm
      · simp only [Prod.mk.injEq, Except.ok.injEq] at h
        exact h.1.symm

/-- A successful `add_pattern` implies the space check passed and the
directory still had room for a sequential number (`n ≤ 98`), and pins the
returned number. -/
theorem addPattern_ok_inv (t : Track) (n : Nat) (pat : List Nat) (r s p : Nat)
    (t' : Track) (hwf : WF t n) (hok : t.addPattern pat r s = (.ok p, t')) :
    (pat.length : Int) ≤ t.freeMem ∧ n ≤ 98 ∧ p = 901 + n := by
  obtain ⟨hlen, hpgm, hpgmLB, havailLB, havailUB, hmid, hlast, hempty⟩ := hwf
  rw [Track.addPattern] at hok
  by_cases hg : (pat.length : Int) > t.freeMem
  · rw [if_pos hg] at hok
    simp at hok
  · rw [if_neg hg] at hok
    rw [findEmpty_scan t n hpgm hmid hlast hempty] at hok
    by_cases hm : (901 + n) % 1000 = 901 + n
    · rw [if_pos hm] at hok
      dsimp only at hok
      refine ⟨by omega, by omega, ?_⟩
      exact addPatternAt_num t pat r s (7 * n) (901 + n) p t' hok
    · rw [if_neg hm] at hok
      simp at hok

/-- A successful `add_pattern` on a well-formed track: the returned number is
`901 + n`, the two boundary words move by `len(pattern) + 1` and `7`
respectively (so `free_mem` shrinks by `len(pattern) + 8`), the new directory
entry at slot `n` holds the old `available_offset` and the BCD-encoded
dimensions, and well-formedness is preserved with `n + 1` patterns. -/
theorem addPattern_ok (t : Track) (n : Nat) (pat : List Nat) (r s : Nat)
    (hwf : WF t n) (hr : r ≤ 999) (hs : s ≤ 999)
    (hk : (pat.length : Int) ≤ t.freeMem) (hn : n ≤ 98) :
    ∃ t', t.addPattern pat r s = (.ok (901 + n), t') ∧
      WF t' (n + 1) ∧
      t'.availableOffset = t.availableOffset + pat.length + 1 ∧
      t'.pgmInfoEnd = t.pgmInfoEnd - 7 ∧
      t'.freeMem = t.freeMem - ((pat.length : Int) + 8) ∧
      t'.getWord (7 * n) = t.availableOffset ∧
      t'.patNum (7 * n) = some (901 + n) ∧
      entryRows (t'.slice (7 * n) 7) = r ∧
      entryStitches (t'.slice (7 * n) 7) = s ∧
      entryPatNum4 (t'.slice (7 * n) 7) = 901 + n := by
  obtain ⟨hlen, hpgm, hpgmLB, havailLB, havailUB, hmid, hlast, hempty⟩ := hwf
  have hfree : t.availableOffset + pat.length ≤ t.pgmInfoEnd := by
    rw [Track.freeMem] at hk
    omega
  obtain ⟨info, hpi, hpilen, hpi0, hpi1, hpiR, hpiS, hpiP4, hpiHex, hpiB⟩ :=
    programInfo_spec t.availableOffset r s (901 + n) (by omega) hr hs (by omega)
  obtain ⟨info2, hpi2, hpi2len, hpi20, hpi21, hpi2R, hpi2S, hpi2P4, hpi2Hex, hpi2B⟩ :=
    programInfo_spec 0 0 0 (902 + n) (by omega) (by omega) (by omega) (by omega)
  rw [Nat.cast_zero] at hpi2
  -- the directory scan finds the trailing empty slot
  have hinfoEnd : (trackSize : Int) - (t.pgmInfoEnd : Int) = ((7 * (n + 1) : Nat) : Int) := by
    simp only [trackSize]
    omega
  have hscan : t.findEmpty (scanLocs ((trackSize : Int) - (t.pgmInfoEnd : Int)))
      initialPatternNumber = .ok (7 * n, 901 + n) := by
    rw [hinfoEnd, scanLocs_eq n]
    have hgo := findEmpty_go t n hmid hlast hempty n 0 (by omega)
    rw [if_pos (by omega : (901 + n) % 1000 = 901 + n)] at hgo
    simpa [initialPatternNumber] using hgo
  -- the five buffer writes, in normal form
  set t1 := t.writeAt (7 * n) info with ht1
  set t2 := t1.writeAt (2048 - (t.availableOffset + pat.length)) pat with ht2
  set t3 := t2.writeAt 1792 [(t.availableOffset + pat.length + 1) / 256,
    (t.availableOffset + pat.length + 1) % 256] with ht3
  set t4a := t3.writeAt (7 * (n + 1)) info2 with ht4a
  set t4 := t4a.writeAt 1808 [(t.pgmInfoEnd - 7) / 256, (t.pgmInfoEnd - 7) % 256] with ht4
  have hl1 : t1.len = 2048 := by rw [ht1, Track.len_writeAt, hlen]
  have hl2 : t2.len = 2048 := by rw [ht2, Track.len_writeAt, hl1]
  have hl3 : t3.len = 2048 := by rw [ht3, Track.len_writeAt, hl2]
  have hl4a : t4a.len = 2048 := by rw [ht4a, Track.len_writeAt, hl3]
  have hl4 : t4.len = 2048 := by rw [ht4, Track.len_writeAt, hl4a]
  -- window bounds used throughout
  have hW1 : 7 * n + info.length ≤ t.len := by rw [hpilen, hlen]; omega
  have hW2 : (2048 - (t.availableOffset + pat.length)) + pat.length ≤ t1.len := by
    rw [hl1]; omega
  have hW3 : 1792 + ([(t.availableOffset + pat.length + 1) / 256,
      (t.availableOffset + pat.length + 1) % 256] : List Nat).length ≤ t2.len := by
    rw [hl2]; simp
  have hW4 : 7 * (n + 1) + info2.length ≤ t3.len := by rw [hpi2len, hl3]; omega
  have hW5 : 1808 + ([(t.pgmInfoEnd - 7) / 256, (t.pgmInfoEnd - 7) % 256] :
      List Nat).length ≤ t4a.len := by rw [hl4a]; simp
  -- `set_bytes` calls reduce to their `writeAt` normal forms
  have hsb1 : t.setBytes ((7 * n : Nat) : Int) info = t1 := by
    rw [ht1]
    exact t.setBytes_nat (7 * n) info hW1
  have hsb2 : t1.setBytes (-(((t.availableOffset + pat.length : Nat)) : Int)) pat = t2 := by
    rw [ht2]
    have hb := Track.setBytes_neg t1 (t.availableOffset + pat.length) pat
      (by omega) (by rw [hl1]; omega)
    rw [hl1] at hb
    exact hb
  have hsetav : t2.setAvailable (((t.availableOffset + pat.length : Nat) : Int) + 1) =
      some t3 := by
    rw [Track.setAvailable, Track.setWord_some t2 availableLoc _ (by omega) (by omega)
      (by simp only [availableLoc]; rw [hl2]; omega)]
    rw [ht3]
    have hv : ((((t.availableOffset + pat.length : Nat)) : Int) + 1).toNat =
        t.availableOffset + pat.length + 1 := by omega
    rw [hv]
    simp only [availableLoc]
  have hP3 : t3.pgmInfoEnd = t.pgmInfoEnd := by
    rw [Track.pgmInfoEnd]
    simp only [pgmInfoEndLoc]
    rw [ht3, Track.getWord_writeAt_out t2 1792 _ hW3 1808 (by simp)]
    rw [ht2, Track.getWord_writeAt_out t1 _ pat hW2 1808 (by omega)]
    rw [ht1, Track.getWord_writeAt_out t (7 * n) info hW1 1808 (by omega)]
    rw [← pgmInfoEndLoc, ← Track.pgmInfoEnd]
  have haddentry : t3.addPgmEntry (901 + n + 1) = some t4 := by
    rw [Track.addPgmEntry]
    have h902 : 901 + n + 1 = 902 + n := by omega
    rw [h902, hpi2]
    simp only [Option.bind_eq_bind, Option.some_bind]
    rw [hP3]
    have hsb3 : t3.setBytes (-((t.pgmInfoEnd : Nat) : Int)) info2 = t4a := by
      rw [ht4a]
      have hb := Track.setBytes_neg t3 t.pgmInfoEnd info2
        (by rw [hpi2len]; omega) (by rw [hl3]; omega)
      rw [hl3] at hb
      have h2048 : 2048 - t.pgmInfoEnd = 7 * (n + 1) := by omega
      rw [h2048] at hb
      exact hb
    rw [hsb3]
    rw [Track.setPgmInfoEnd, Track.setWord_some t4a pgmInfoEndLoc _
      (by rw [hpi2len]; omega) (by rw [hpi2len]; omega)
      (by simp only [pgmInfoEndLoc]; rw [hl4a]; omega)]
    rw [ht4]
    have hv2 : (((t.pgmInfoEnd : Nat) : Int) - (info2.length : Int)).toNat =
        t.pgmInfoEnd - 7 := by
      rw [hpi2len]
      omega
    rw [hv2]
    simp only [pgmInfoEndLoc]
  -- the run of `add_pattern` itself, stage by stage
  have htail : Track.addPatternTail t t3 (7 * n) info.length (901 + n) =
      (.ok (901 + n), t4) := by
    rw [Track.addPatternTail]
    rw [if_pos (by rw [hpilen, hinfoEnd]; push_cast; omega)]
    rw [haddentry]
  have hat : t.addPatternAt pat r s (7 * n) (901 + n) = (.ok (901 + n), t4) := by
    rw [Track.addPatternAt]
    rw [hpi]
    dsimp only
    rw [hsb1, hsb2, hsetav]
    exact htail
  have hrun : t.addPattern pat r s = (.ok (901 + n), t4) := by
    rw [Track.addPattern]
    rw [if_neg (not_lt.mpr hk)]
    rw [hscan]
    exact hat
  -- observations on the final state
  have havail4 : t4.availableOffset = t.availableOffset + pat.length + 1 := by
    rw [Track.availableOffset]
    simp only [availableLoc]
    rw [ht4, Track.getWord_writeAt_out t4a 1808 _ hW5 1792 (by simp)]
    rw [ht4a, Track.getWord_writeAt_out t3 (7 * (n + 1)) info2 hW4 1792
      (by rw [hpi2len]; omega)]
    rw [ht3, Track.getWord_writeAt_word t2 1792 (t.availableOffset + pat.length + 1)
      (by rw [hl2]; omega)]
  have hpgm4 : t4.pgmInfoEnd = t.pgmInfoEnd - 7 := by
    rw [Track.pgmInfoEnd]
    simp only [pgmInfoEndLoc]
    rw [ht4, Track.getWord_writeAt_word t4a 1808 (t.pgmInfoEnd - 7) (by rw [hl4a]; omega)]
  have hword4 : t4.getWord (7 * n) = t.availableOffset := by
    rw [ht4, Track.getWord_writeAt_out t4a 1808 _ hW5 (7 * n) (by omega)]
    rw [ht4a, Track.getWord_writeAt_out t3 (7 * (n + 1)) info2 hW4 (7 * n) (by omega)]
    rw [ht3, Track.getWord_writeAt_out t2 1792 _ hW3 (7 * n) (by omega)]
    rw [ht2, Track.getWord_writeAt_out t1 _ pat hW2 (7 * n) (by omega)]
    rw [ht1, Track.getWord_writeAt_start t (7 * n) info hW1 (by rw [hpilen]; omega)]
    rw [hpi0, hpi1]
    omega
  have hslice4 : t4.slice (7 * n) 7 = info := by
    have h7 : 7 * n + 7 ≤ 2048 := by omega
    rw [ht4, Track.slice_writeAt_out t4a 1808 _ hW5 (7 * n) 7 (by rw [hl4a]; omega)
      (by omega)]
    rw [ht4a, Track.slice_writeAt_out t3 (7 * (n + 1)) info2 hW4 (7 * n) 7
      (by rw [hl3]; omega) (by omega)]
    rw [ht3, Track.slice_writeAt_out t2 1792 _ hW3 (7 * n) 7 (by rw [hl2]; omega)
      (by omega)]
    rw [ht2, Track.slice_writeAt_out t1 _ pat hW2 (7 * n) 7 (by rw [hl1]; omega)
      (by omega)]
    rw [ht1]
    have := Track.slice_writeAt_self t (7 * n) info hW1
    rw [hpilen] at this
    exact this
  have hpat4 : t4.patNum (7 * n) = some (901 + n) := by
    rw [Track.patNum]
    have hps : pgmInfoSize = 7 := rfl
    rw [hps, hslice4, hpiHex]
    congr 1
    omega
  have hpat4' : t4.patNum (7 * (n + 1)) = some ((901 + (n + 1)) % 1000) := by
    rw [ht4, Track.patNum_writeAt_out t4a 1808 _ hW5 (7 * (n + 1))
      (by rw [hl4a]; omega) (by omega)]
    rw [ht4a]
    have hself := Track.patNum_writeAt_self t3 (7 * (n + 1)) info2 hpi2len
      (by rw [hpi2len, hl3]; omega)
    rw [hself, hpi2Hex]
    congr 2
    omega
  have hword4' : t4.getWord (7 * (n + 1)) = 0 := by
    rw [ht4, Track.getWord_writeAt_out t4a 1808 _ hW5 (7 * (n + 1)) (by omega)]
    rw [ht4a, Track.getWord_writeAt_start t3 (7 * (n + 1)) info2 hW4
      (by rw [hpi2len]; omega)]
    rw [hpi20, hpi21]
  have hkeep : ∀ i, i < n → t4.patNum (7 * i) = t.patNum (7 * i) ∧
      t4.getWord (7 * i) = t.getWord (7 * i) := by
    intro i hi
    constructor
    · rw [ht4, Track.patNum_writeAt_out t4a 1808 _ hW5 (7 * i) (by rw [hl4a]; omega)
        (by omega)]
      rw [ht4a, Track.patNum_writeAt_out t3 (7 * (n + 1)) info2 hW4 (7 * i)
        (by rw [hl3]; omega) (by omega)]
      rw [ht3, Track.patNum_writeAt_out t2 1792 _ hW3 (7 * i) (by rw [hl2]; omega)
        (by omega)]
      rw [ht2, Track.patNum_writeAt_out t1 _ pat hW2 (7 * i) (by rw [hl1]; omega)
        (by omega)]
      rw [ht1, Track.patNum_writeAt_out t (7 * n) info hW1 (7 * i) (by rw [hlen]; omega)
        (by rw [hpilen]; omega)]
    · rw [ht4, Track.getWord_writeAt_out t4a 1808 _ hW5 (7 * i) (by omega)]
      rw [ht4a, Track.getWord_writeAt_out t3 (7 * (n + 1)) info2 hW4 (7 * i) (by omega)]
      rw [ht3, Track.getWord_writeAt_out t2 1792 _ hW3 (7 * i) (by omega)]
      rw [ht2, Track.getWord_writeAt_out t1 _ pat hW2 (7 * i) (by omega)]
      rw [ht1, Track.getWord_writeAt_out t (7 * n) info hW1 (7 * i)
        (by rw [hpilen]; omega)]
  refine ⟨t4, hrun, ?_, havail4, hpgm4, ?_, hword4, hpat4, ?_, ?_, ?_⟩
  · refine ⟨hl4, ?_, ?_, ?_, ?_, ?_, hpat4', hword4'⟩
    · rw [hpgm4]; omega
    · rw [hpgm4]; omega
    · rw [havail4]; omega
    · rw [havail4]; omega
    · intro i hi
      rcases Nat.lt_or_ge i n with hin | hin
      · rw [(hkeep i hin).1, (hkeep i hin).2]
        exact hmid i hin
      · have hieq : i = n := by omega
        subst hieq
        exact ⟨hpat4, by rw [hword4]; omega⟩
  · rw [Track.freeMem, Track.freeMem, havail4, hpgm4]
    omega
  · rw [hslice4]; exact hpiR
  · rw [hslice4]; exact hpiS
  · rw [hslice4]
    rw [hpiP4]

/-- The freshly constructed track is well-formed with zero patterns. -/
theorem WF_initTrack : WF initTrack 0 := by
  refine ⟨?_, ?_, ?_, ?_, ?_, ?_, ?_, ?_⟩
  · decide
  · decide
  · decide
  · decide
  · decide
  · intro i hi
    exact absurd hi (Nat.not_lt_zero i)
  · decide
  · decide

/-- The scan of `add_pattern` can fail, but never with the out-of-space
error. -/
theorem findEmpty_ne_space (t : Track) :
    ∀ (l : List Nat) (p : Nat), t.findEmpty l p ≠ .error .notEnoughSpace
  | [], p => by
    rw [Track.findEmpty]
    simp
  | loc :: rest, p => by
    rw [Track.findEmpty]
    cases t.patNum loc with
    | none => simp
    | some q =>
      dsimp only
      split
      · simp
      · split
        · simp
        · exact findEmpty_ne_space t rest (p + 1)

/-- Once past the space check, `add_pattern` never raises the out-of-space
error. -/
theorem addPatternAt_ne_space (t : Track) (pat : List Nat) (r s loc q : Nat) :
    (t.addPatternAt pat r s loc q).1 ≠ .error .notEnoughSpace := by
  rw [Track.addPatternAt]
  split
  · simp
  · dsimp only
    split
    · simp
    · rw [Track.addPatternTail]
      split
      · split
        · simp
        · simp
      · simp

/-- `add_pattern` raises the out-of-space `Error` exactly when the pattern is
longer than `free_mem()`, and in that case it returns the track unchanged. -/
theorem addPattern_space_iff (t : Track) (pat : List Nat) (r s : Nat) :
    ((t.addPattern pat r s).1 = .error .notEnoughSpace ↔
      (pat.length : Int) > t.freeMem) ∧
    ((pat.length : Int) > t.freeMem →
      t.addPattern pat r s = (.error .notEnoughSpace, t)) := by
  constructor
  · rw [Track.addPattern]
    by_cases hg : (pat.length : Int) > t.freeMem
    · rw [if_pos hg]
      simpa using hg
    · rw [if_neg hg]
      constructor
      · intro h
        exfalso
        cases hf : t.findEmpty (scanLocs ((trackSize : Int) - (t.pgmInfoEnd : Int)))
            initialPatternNumber with
        | error e =>
          rw [hf] at h
          dsimp only at h
          rw [Except.error.injEq] at h
          subst h
          exact findEmpty_ne_space t _ _ hf
        | ok lp =>
          rw [hf] at h
          dsimp only at h
          exact addPatternAt_ne_space t pat r s lp.1 lp.2 h
      · intro h
        exact absurd h hg
  · intro h
    rw [Track.addPattern, if_pos h]

/-- Perform a sequence of `add_pattern` calls, collecting the returned
pattern numbers; `none` as soon as one raises. -/
def addAll (t : Track) : List (List Nat × Nat × Nat) → Option (Track × List Nat)
  | [] => some (t, [])
  | (pat, r, s) :: rest =>
    match t.addPattern pat r s with
    | (.ok p, t') =>
      match addAll t' rest with
      | some (tf, ps) => some (tf, p :: ps)
      | none => none
    | (.error _, _) => none

/-- A successful run of `n` `add_pattern` calls from a track holding `m`
patterns yields a well-formed track holding `m + n` patterns and returns the
numbers `901+m, …, 900+m+n` in order. -/
theorem addAll_spec (calls : List (List Nat × Nat × Nat)) : ∀ (t : Track) (m : Nat),
    WF t m →
    (∀ c ∈ calls, c.2.1 ≤ 999 ∧ c.2.2 ≤ 999) →
    ∀ tf nums, addAll t calls = some (tf, nums) →
    WF tf (m + calls.length) ∧
      nums = (List.range calls.length).map (fun i => 901 + m + i) := by
  induction calls with
  | nil =>
    intro t m hwf _ tf nums h
    rw [addAll] at h
    simp only [Option.some.injEq, Prod.mk.injEq] at h
    obtain ⟨h1, h2⟩ := h
    subst h1
    subst h2
    simpa using hwf
  | cons c rest ih =>
    obtain ⟨pat, r, s⟩ := c
    intro t m hwf hdims tf nums h
    rw [addAll] at h
    rcases hres : t.addPattern pat r s with ⟨res, t'⟩
    rw [hres] at h
    cases res with
    | error e => simp at h
    | ok p =>
      dsimp only at h
      have hhead := hdims _ (List.mem_cons_self _ _)
      obtain ⟨hkle, hm98, hp⟩ := addPattern_ok_inv t m pat r s p t' hwf hres
      obtain ⟨t'', hrun, hwf', _⟩ :=
        addPattern_ok t m pat r s hwf hhead.1 hhead.2 hkle hm98
      rw [hres] at hrun
      rw [Prod.mk.injEq] at hrun
      have ht' : t' = t'' := hrun.2
      subst ht'
      rcases har : addAll t' rest with _ | ⟨tf0, ps⟩
      · rw [har] at h
        simp at h
      · rw [har] at h
        dsimp only at h
        simp only [Option.some.injEq, Prod.mk.injEq] at h
        obtain ⟨htf, hnums⟩ := h
        subst htf
        obtain ⟨hwff, hps⟩ := ih t' (m + 1) hwf'
          (fun c hc => hdims c (List.mem_cons_of_mem _ hc)) tf0 ps har
        constructor
        · have : m + (rest.length + 1) = m + 1 + rest.length := by omega
          rw [List.length_cons, this]
          exact hwff
        · rw [← hnums, hps, hp, List.length_cons, List.range_succ_eq_map,
            List.map_cons, List.map_map]
          congr 1
          apply List.map_congr_left
          intro i _
          simp only [Function.comp_apply]
          omega

/-! ## Lemmas on the image encoder -/

/-- The row loop of `encode_image` equals the per-row description: row `r`
is the `nstitches` bits starting at `r * nstitches`, preceded by the row
padding. -/
theorem padRows_eq_spec (s : Nat) : ∀ (n : Nat) (bs : List Nat),
    padRows s n bs = ((List.range n).map
      (fun r => List.replicate (rowPad s) 0 ++ (bs.drop (r * s)).take s)).flatten
  | 0, bs => by simp [padRows]
  | n + 1, bs => by
    have hmap : (List.range n).map
        (fun r => List.replicate (rowPad s) 0 ++ (((bs.drop s).drop (r * s)).take s)) =
        (List.range n).map
        ((fun r => List.replicate (rowPad s) 0 ++ ((bs.drop (r * s)).take s)) ∘ Nat.succ) := by
      apply List.map_congr_left
      intro r _
      simp only [Function.comp_apply]
      congr 2
      rw [List.drop_drop]
      congr 1
      simp only [Nat.succ_eq_add_one]
      ring
    rw [padRows, padRows_eq_spec s n (bs.drop s), List.range_succ_eq_map, List.map_cons,
      List.flatten_cons, List.map_map, ← hmap]
    simp [List.append_assoc]

/-- Length of the padded bit sequence: `n` rows of `rowPad s + s` bits. -/
theorem padRows_length (s : Nat) : ∀ (n : Nat) (bs : List Nat),
    bs.length = n * s → (padRows s n bs).length = n * (rowPad s + s)
  | 0, bs, _ => by simp [padRows]
  | n + 1, bs, h => by
    have hexp : (n + 1) * s = n * s + s := by ring
    rw [padRows]
    simp only [List.length_append, List.length_replicate, List.length_take]
    rw [padRows_length s n (bs.drop s)
      (by simp only [List.length_drop]; rw [h, hexp]; omega)]
    have hmin : min s bs.length = s := by
      rw [h, hexp]
      omega
    rw [hmin]
    ring

/-- `packBits` produces one byte per 8 bits, rounded up. -/
theorem packBits_length : ∀ (l : List Nat), (packBits l).length = (l.length + 7) / 8
  | [] => by
    have h : packBits ([] : List Nat) = [] := rfl
    rw [h]
    simp
  | [b0] => by
    have h : packBits [b0] = [[b0].foldl (fun a b => 2 * a + b) 0] := rfl
    rw [h]
    simp
  | [b0, b1] => by
    have h : packBits [b0, b1] = [[b0, b1].foldl (fun a b => 2 * a + b) 0] := rfl
    rw [h]
    simp
  | [b0, b1, b2] => by
    have h : packBits [b0, b1, b2] = [[b0, b1, b2].foldl (fun a b => 2 * a + b) 0] := rfl
    rw [h]
    simp
  | [b0, b1, b2, b3] => by
    have h : packBits [b0, b1, b2, b3] =
      [[b0, b1, b2, b3].foldl (fun a b => 2 * a + b) 0] := rfl
    rw [h]
    simp
  | [b0, b1, b2, b3, b4] => by
    have h : packBits [b0, b1, b2, b3, b4] =
      [[b0, b1, b2, b3, b4].foldl (fun a b => 2 * a + b) 0] := rfl
    rw [h]
    simp
  | [b0, b1, b2, b3, b4, b5] => by
    have h : packBits [b0, b1, b2, b3, b4, b5] =
      [[b0, b1, b2, b3, b4, b5].foldl (fun a b => 2 * a + b) 0] := rfl
    rw [h]
    simp
  | [b0, b1, b2, b3, b4, b5, b6] => by
    have h : packBits [b0, b1, b2, b3, b4, b5, b6] =
      [[b0, b1, b2, b3, b4, b5, b6].foldl (fun a b => 2 * a + b) 0] := rfl
    rw [h]
    simp
  | b0 :: b1 :: b2 :: b3 :: b4 :: b5 :: b6 :: b7 :: rest => by
    have h : packBits (b0 :: b1 :: b2 :: b3 :: b4 :: b5 :: b6 :: b7 :: rest) =
        [b0, b1, b2, b3, b4, b5, b6, b7].foldl (fun a b => 2 * a + b) 0 ::
          packBits rest := rfl
    rw [h, List.length_cons, packBits_length rest]
    simp only [List.length_cons]
    omega

/-! ## Claim theorems -/

/-- C2 (counterexample): immediately after `Track.__init__`, `free_mem()` is
not 281 — the construction stores `pgm_info_end = 0x800 - 7 = 2041` and
`available_offset = 0x120 = 288`, so `free_mem() = 1753`. -/
theorem init_free_mem_ce : initTrack.freeMem ≠ 281 := by decide

/-- C2 (amended): immediately after construction `free_mem()` equals
`1753 = (0x800 - 7) - 0x120`, the program info region holds exactly one
7-byte entry, and that entry decodes to pattern number 901 with offset
word 0. -/
theorem init_track_state :
    trackInit = some initTrack ∧
    initTrack.freeMem = 1753 ∧
    initTrack.pgmInfoEnd = 2041 ∧
    initTrack.availableOffset = 288 ∧
    trackSize - initTrack.pgmInfoEnd = pgmInfoSize ∧
    initTrack.patNum 0 = some 901 ∧
    initTrack.getWord 0 = 0 := by
  refine ⟨rfl, by decide, by decide, by decide, by decide, by decide, by decide⟩

/-- C3: `add_pattern` raises the recoverable out-of-space `Error` exactly when
the pattern length exceeds `free_mem()`, and in that case the returned state
is the original track — `available_offset()`, `pgm_info_end()` and every
buffer byte unchanged. -/
theorem add_pattern_out_of_space (t : Track) (pat : List Nat) (r s : Nat)
    (_hlen : t.len = 2048) :
    ((t.addPattern pat r s).1 = .error .notEnoughSpace ↔
      (pat.length : Int) > t.freeMem) ∧
    ((pat.length : Int) > t.freeMem →
      t.addPattern pat r s = (.error .notEnoughSpace, t)) :=
  addPattern_space_iff t pat r s

/-- C3 witness at a concrete out-of-space call on a fresh track. -/
theorem add_pattern_out_of_space_witness :
    initTrack.len = 2048 ∧
    (((initTrack.addPattern (List.replicate 2000 0) 1 1).1 =
        .error .notEnoughSpace ↔
      ((List.replicate 2000 0 : List Nat).length : Int) > initTrack.freeMem) ∧
    (((List.replicate 2000 0 : List Nat).length : Int) > initTrack.freeMem →
      initTrack.addPattern (List.replicate 2000 0) 1 1 =
        (.error .notEnoughSpace, initTrack))) :=
  ⟨by decide, add_pattern_out_of_space initTrack (List.replicate 2000 0) 1 1 (by decide)⟩

/-- C6 (counterexample): the id files written by `Track.write` are 12 bytes,
not 13 — `pack_nibbles(to_bcd(1, 2))` is a single byte, plus `bytearray(11)`. -/
theorem write_id_ce : ((Track.write initTrack 1).id0).length ≠ 13 := by decide

/-- C6 (amended): for a track number `T ≤ 99`, `Track.write` produces the two
id files `N.id` and `(N+1).id` with `N = (T-1)*2`, each exactly 12 bytes: the
BCD-nibble-packed 2-digit track number in the first byte and 11 zero bytes
after it; for `T = 1` the first byte is `0x01`. -/
theorem write_id_files (t : Track) (T : Nat) (h1 : 1 ≤ T) (h99 : T ≤ 99) :
    (t.write T).sector = (T - 1) * 2 ∧
    (t.write T).id0 = (T / 10 * 16 + T % 10) :: List.replicate 11 0 ∧
    (t.write T).id1 = (t.write T).id0 ∧
    (t.write T).id0.length = 12 ∧
    (T = 1 → (t.write T).id0 = 1 :: List.replicate 11 0) := by
  obtain ⟨d0, d1, he, hd0, hd1, hv⟩ := toBcd_two T h99
  have hid : sectorId T = (T / 10 * 16 + T % 10) :: List.replicate 11 0 := by
    rw [sectorId, he]
    have hp : packNibbles [d0, d1] = [d0 * 16 + d1] := by
      simp [packNibbles, packPairs]
    rw [hp]
    have e0 : d0 = T / 10 := by omega
    have e1 : d1 = T % 10 := by omega
    rw [e0, e1]
    rfl
  refine ⟨rfl, ?_, rfl, ?_, ?_⟩
  · rw [Track.write]
    exact hid
  · rw [Track.write]
    dsimp only
    rw [hid]
    simp
  · intro hT
    subst hT
    rw [Track.write]
    dsimp only
    rw [hid]

/-- C6 witness at `T = 1` on a fresh track. -/
theorem write_id_files_witness :
    (1 : Nat) ≤ 1 ∧ (1 : Nat) ≤ 99 ∧
    ((Track.write initTrack 1).sector = (1 - 1) * 2 ∧
     (Track.write initTrack 1).id0 = (1 / 10 * 16 + 1 % 10) :: List.replicate 11 0 ∧
     (Track.write initTrack 1).id1 = (Track.write initTrack 1).id0 ∧
     (Track.write initTrack 1).id0.length = 12 ∧
     ((1 : Nat) = 1 → (Track.write initTrack 1).id0 = 1 :: List.replicate 11 0)) :=
  ⟨by decide, by decide, write_id_files initTrack 1 (by decide) (by decide)⟩

/-- C7 (counterexample): `set_bytes(-4, [170, 187])` puts the bytes at
positions 2044 and 2045 — the write starts `|loc|` bytes before the end of
the buffer — not at positions 2042 and 2043 as the claim's
`[2048-|loc|-len, 2048-|loc|)` window would require. -/
theorem set_bytes_negative_ce :
    ((Track.mk 2048 (fun _ => 0)).setBytes (-4) [170, 187]).getD 2042 = 0 ∧
    ((Track.mk 2048 (fun _ => 0)).setBytes (-4) [170, 187]).getD 2042 ≠ 170 ∧
    ((Track.mk 2048 (fun _ => 0)).setBytes (-4) [170, 187]).getD 2044 = 170 ∧
    ((Track.mk 2048 (fun _ => 0)).setBytes (-4) [170, 187]).getD 2045 = 187 := by
  refine ⟨by decide, by decide, by decide, by decide⟩

/-- C7 (amended): for a negative location `-o` with `0 < o ≤ 2048` and
`len(seq) < o`, `set_bytes` writes `seq` starting `o` bytes before the end of
the 2048-byte buffer — it occupies positions `[2048-o, 2048-o+len)` — with
every other byte and the length unchanged.  (At `len(seq) = o` Python's slice
arithmetic makes the resolved stop index 0 and the assignment inserts,
growing the buffer, so that case is excluded.) -/
theorem set_bytes_from_end (t : Track) (o : Nat) (seq : List Nat)
    (hlen : t.len = 2048) (h0 : 0 < o) (ho : o ≤ 2048) (hs : seq.length < o) :
    (t.setBytes (-(o : Int)) seq).len = 2048 ∧
    (∀ i, i < seq.length →
      (t.setBytes (-(o : Int)) seq).getD (2048 - o + i) = seq.getD i 0) ∧
    (∀ j, j < 2048 → (j < 2048 - o ∨ 2048 - o + seq.length ≤ j) →
      (t.setBytes (-(o : Int)) seq).getD j = t.getD j) := by
  have hb := Track.setBytes_neg t o seq hs (by omega)
  rw [hlen] at hb
  rw [hb]
  refine ⟨?_, ?_, ?_⟩
  · rw [Track.len_writeAt, hlen]
  · intro i hi
    exact Track.getD_writeAt_in t (2048 - o) seq (by omega) i hi
  · intro j hj hout
    exact Track.getD_writeAt_out t (2048 - o) seq (by omega) j (by omega)

/-- C7 witness at a concrete negative-offset write. -/
theorem set_bytes_from_end_witness :
    (Track.mk 2048 (fun _ => 0)).len = 2048 ∧ (0 : Nat) < 100 ∧ (100 : Nat) ≤ 2048 ∧
    ([55, 66] : List Nat).length < 100 ∧
    (((Track.mk 2048 (fun _ => 0)).setBytes (-(100 : Int)) [55, 66]).len = 2048 ∧
     (∀ i, i < ([55, 66] : List Nat).length →
       ((Track.mk 2048 (fun _ => 0)).setBytes (-(100 : Int)) [55, 66]).getD
         (2048 - 100 + i) = ([55, 66] : List Nat).getD i 0) ∧
     (∀ j, j < 2048 → (j < 2048 - 100 ∨ 2048 - 100 + ([55, 66] : List Nat).length ≤ j) →
       ((Track.mk 2048 (fun _ => 0)).setBytes (-(100 : Int)) [55, 66]).getD j =
         (Track.mk 2048 (fun _ => 0)).getD j)) :=
  ⟨by decide, by decide, by decide, by decide,
    set_bytes_from_end (Track.mk 2048 (fun _ => 0)) 100 [55, 66]
      (by decide) (by decide) (by decide) (by decide)⟩

/-- C8 (counterexample): on the valid-BCD entry `[0,0,0,0,0,0x10,0x00]` (all
14 nibbles decimal), the hex-text decode of `pat_num` yields 0 while the
structured 4-digit nibble decode of the last two bytes yields 1000 — the two
decoders disagree whenever the leading pattern-number digit is non-zero. -/
theorem pat_num_hex_ce :
    ((hexNibbles [0, 0, 0, 0, 0, 16, 0]).all (· < 10)) = true ∧
    entryPatNumHex [0, 0, 0, 0, 0, 16, 0] = some 0 ∧
    entryPatNum4 [0, 0, 0, 0, 0, 16, 0] = 1000 ∧
    entryPatNumHex [0, 0, 0, 0, 0, 16, 0] ≠
      some (entryPatNum4 [0, 0, 0, 0, 0, 16, 0]) := by
  refine ⟨by decide, by decide, by decide, by decide⟩

/-- C8 (amended): for every 7-byte entry whose 14 nibbles are all valid BCD
digits, the hex-text decode of `pat_num` (last 3 hex digits read as decimal)
equals the structured 4-digit nibble decode of the last two bytes reduced
modulo 1000; the two agree exactly when the leading digit is 0. -/
theorem pat_num_hex_decode (entry : List Nat) (h7 : entry.length = 7)
    (hbcd : ∀ nib ∈ hexNibbles entry, nib < 10) :
    entryPatNumHex entry = some (entryPatNum4 entry % 1000) := by
  rcases entry with _ | ⟨b0, e⟩
  · simp at h7
  rcases e with _ | ⟨b1, e⟩
  · simp at h7
  rcases e with _ | ⟨b2, e⟩
  · simp at h7
  rcases e with _ | ⟨b3, e⟩
  · simp at h7
  rcases e with _ | ⟨b4, e⟩
  · simp at h7
  rcases e with _ | ⟨b5, e⟩
  · simp at h7
  rcases e with _ | ⟨b6, e⟩
  · simp at h7
  rcases e with _ | ⟨x, e⟩
  swap
  · simp only [List.length_cons, List.length_nil] at h7
    omega
  have h5l : b5 % 16 < 10 := hbcd (b5 % 16) (by simp [hexNibbles])
  have h6h : b6 / 16 < 10 := hbcd (b6 / 16) (by simp [hexNibbles])
  have h6l : b6 % 16 < 10 := hbcd (b6 % 16) (by simp [hexNibbles])
  rw [entryPatNumHex_explicit b0 b1 b2 b3 b4 b5 b6 h5l h6h h6l]
  congr 1
  rw [entryPatNum4]
  have g5 : List.getD [b0, b1, b2, b3, b4, b5, b6] 5 0 = b5 := rfl
  have g6 : List.getD [b0, b1, b2, b3, b4, b5, b6] 6 0 = b6 := rfl
  rw [g5, g6]
  omega

/-- C8 witness on the initial directory entry encoding pattern number 901. -/
theorem pat_num_hex_decode_witness :
    ([0, 0, 0, 0, 0, 9, 1] : List Nat).length = 7 ∧
    (∀ nib ∈ hexNibbles [0, 0, 0, 0, 0, 9, 1], nib < 10) ∧
    entryPatNumHex [0, 0, 0, 0, 0, 9, 1] =
      some (entryPatNum4 [0, 0, 0, 0, 0, 9, 1] % 1000) :=
  ⟨by decide, by decide, pat_num_hex_decode [0, 0, 0, 0, 0, 9, 1] (by decide) (by decide)⟩

/-- C1 (counterexample): a successful `add_pattern` of a zero-length pattern
on a fresh track reduces `free_mem()` by 8, not by `k + 1 = 1` — the call
also appends a new 7-byte trailing directory entry. -/
theorem add_pattern_free_mem_ce :
    (initTrack.addPattern [] 0 0).1 = .ok 901 ∧
    initTrack.freeMem - (initTrack.addPattern [] 0 0).2.freeMem ≠
      (([] : List Nat).length : Int) + 1 := by
  refine ⟨by decide, by decide⟩

/-- C1 (amended): on a reachable (well-formed) track, a successful
`add_pattern` of `k` pattern bytes with row/stitch counts at most 999 reduces
`free_mem()` by exactly `k + 8` (`k + 1` for the data plus slack byte, `7`
for the new trailing directory entry), and the directory entry written for
the new pattern decodes to the given row count, the given stitch count, and
the returned pattern number. -/
theorem add_pattern_free_mem (t : Track) (n : Nat) (pat : List Nat) (r s p : Nat)
    (t' : Track) (hwf : WF t n) (hr : r ≤ 999) (hs : s ≤ 999)
    (_hb : ∀ b ∈ pat, b < 256) (hok : t.addPattern pat r s = (.ok p, t')) :
    t.freeMem - t'.freeMem = (pat.length : Int) + 8 ∧
    entryRows (t'.slice (7 * n) 7) = r ∧
    entryStitches (t'.slice (7 * n) 7) = s ∧
    entryPatNum4 (t'.slice (7 * n) 7) = p ∧
    p = 901 + n := by
  obtain ⟨hkle, hn, hp⟩ := addPattern_ok_inv t n pat r s p t' hwf hok
  obtain ⟨t'', hrun, _, _, _, hfree, _, _, hrows, hstitches, hpnum⟩ :=
    addPattern_ok t n pat r s hwf hr hs hkle hn
  rw [hok] at hrun
  rw [Prod.mk.injEq] at hrun
  have ht' : t' = t'' := hrun.2
  subst ht'
  subst hp
  exact ⟨by omega, hrows, hstitches, hpnum, rfl⟩

/-- C1 witness at a concrete one-byte pattern on a fresh track. -/
theorem add_pattern_free_mem_witness :
    WF initTrack 0 ∧ (2 : Nat) ≤ 999 ∧ (3 : Nat) ≤ 999 ∧
    (∀ b ∈ ([7] : List Nat), b < 256) ∧
    (initTrack.freeMem - (initTrack.addPattern [7] 2 3).2.freeMem =
        (([7] : List Nat).length : Int) + 8 ∧
     entryRows ((initTrack.addPattern [7] 2 3).2.slice (7 * 0) 7) = 2 ∧
     entryStitches ((initTrack.addPattern [7] 2 3).2.slice (7 * 0) 7) = 3 ∧
     entryPatNum4 ((initTrack.addPattern [7] 2 3).2.slice (7 * 0) 7) = 901 ∧
     (901 : Nat) = 901 + 0) :=
  ⟨WF_initTrack, by decide, by decide, by decide,
    add_pattern_free_mem initTrack 0 [7] 2 3 901 (initTrack.addPattern [7] 2 3).2
      WF_initTrack (by decide) (by decide) (by decide) rfl⟩

/-- C4 (counterexample): the boundary case is accepted but breaks the
invariant — on a fresh track (`free_mem() = 1753`) a pattern of exactly 1753
bytes is accepted (the check is `len > free_mem()` and the call returns
pattern 901), yet afterwards `free_mem()` is negative. -/
theorem free_mem_nonneg_ce :
    ((List.replicate 1753 0 : List Nat).length : Int) ≤ initTrack.freeMem ∧
    (initTrack.addPattern (List.replicate 1753 0) 1 1).1 = .ok 901 ∧
    (initTrack.addPattern (List.replicate 1753 0) 1 1).2.freeMem < 0 := by
  refine ⟨by decide, by decide, by decide⟩

/-- C4 (amended): `free_mem()` is by definition
`pgm_info_end() - available_offset()` and is non-negative after construction;
a successful `add_pattern` on a reachable track changes it by exactly
`-(k + 8)`, so it stays non-negative only when `k + 8 ≤ free_mem()`; the
out-of-space error is raised exactly when `k > free_mem()`, hence an accepted
`k` in `(free_mem() - 8, free_mem()]` (including the boundary
`k = free_mem()`) drives `free_mem()` negative. -/
theorem free_mem_invariant (t : Track) (n : Nat) (pat : List Nat) (r s p : Nat)
    (t' : Track) (hwf : WF t n) (hr : r ≤ 999) (hs : s ≤ 999)
    (_hb : ∀ b ∈ pat, b < 256) (hok : t.addPattern pat r s = (.ok p, t')) :
    t.freeMem = (t.pgmInfoEnd : Int) - (t.availableOffset : Int) ∧
    (0 : Int) ≤ initTrack.freeMem ∧
    t'.freeMem = t.freeMem - ((pat.length : Int) + 8) ∧
    ((pat.length : Int) + 8 ≤ t.freeMem → 0 ≤ t'.freeMem) ∧
    ((t.addPattern pat r s).1 = .error .notEnoughSpace ↔
      (pat.length : Int) > t.freeMem) := by
  obtain ⟨hkle, hn, hp⟩ := addPattern_ok_inv t n pat r s p t' hwf hok
  obtain ⟨t'', hrun, _, _, _, hfree, _, _, _, _, _⟩ :=
    addPattern_ok t n pat r s hwf hr hs hkle hn
  rw [hok] at hrun
  rw [Prod.mk.injEq] at hrun
  have ht' : t' = t'' := hrun.2
  subst ht'
  exact ⟨rfl, by decide, hfree, by omega, (addPattern_space_iff t pat r s).1⟩

/-- C4 witness at a concrete in-budget pattern on a fresh track. -/
theorem free_mem_invariant_witness :
    WF initTrack 0 ∧ (1 : Nat) ≤ 999 ∧ (1 : Nat) ≤ 999 ∧
    (∀ b ∈ ([3, 4] : List Nat), b < 256) ∧
    (initTrack.freeMem = (initTrack.pgmInfoEnd : Int) - (initTrack.availableOffset : Int) ∧
     (0 : Int) ≤ initTrack.freeMem ∧
     (initTrack.addPattern [3, 4] 1 1).2.freeMem =
       initTrack.freeMem - ((([3, 4] : List Nat).length : Int) + 8) ∧
     ((([3, 4] : List Nat).length : Int) + 8 ≤ initTrack.freeMem →
       0 ≤ (initTrack.addPattern [3, 4] 1 1).2.freeMem) ∧
     ((initTrack.addPattern [3, 4] 1 1).1 = .error .notEnoughSpace ↔
       (([3, 4] : List Nat).length : Int) > initTrack.freeMem)) :=
  ⟨WF_initTrack, by decide, by decide, by decide,
    free_mem_invariant initTrack 0 [3, 4] 1 1 901 (initTrack.addPattern [3, 4] 1 1).2
      WF_initTrack (by decide) (by decide) (by decide) rfl⟩

/-- C5 (counterexample): one successful `add_pattern` call with a row count
of 1000 (four BCD digits) returns pattern number 901 but corrupts the
directory: the oversized 8-byte entry shifts the fields, the first entry no
longer decodes to 901, and no trailing empty entry is appended. -/
theorem sequential_numbers_ce :
    (initTrack.addPattern [] 1000 0).1 = .ok 901 ∧
    (initTrack.addPattern [] 1000 0).2.patNum 0 ≠ some 901 ∧
    (initTrack.addPattern [] 1000 0).2.getWord 0 ≠ 0 ∧
    trackSize - (initTrack.addPattern [] 1000 0).2.pgmInfoEnd = pgmInfoSize := by
  refine ⟨by decide, by decide, by decide, by decide⟩

/-- C5 (amended): for every non-empty sequence of successful `add_pattern`
calls on a freshly constructed track whose row and stitch counts are at most
999, scanning the directory from its start yields entries with pattern
numbers exactly `901, …, 900 + n` in order, all non-empty, followed by
exactly one trailing empty entry (zero offset word) closing the region, and
the `i`-th call returned `900 + i` (in particular the last call returned
`900 + n`). -/
theorem sequential_numbers (calls : List (List Nat × Nat × Nat)) (tf : Track)
    (nums : List Nat) (hne : calls ≠ [])
    (hdims : ∀ c ∈ calls, c.2.1 ≤ 999 ∧ c.2.2 ≤ 999 ∧ ∀ b ∈ c.1, b < 256)
    (h : addAll initTrack calls = some (tf, nums)) :
    (∀ i, i < calls.length →
      tf.patNum (7 * i) = some (901 + i) ∧ tf.getWord (7 * i) ≠ 0) ∧
    tf.getWord (7 * calls.length) = 0 ∧
    7 * (calls.length + 1) + tf.pgmInfoEnd = 2048 ∧
    nums = (List.range calls.length).map (fun i => 901 + i) ∧
    nums.getD (calls.length - 1) 0 = 900 + calls.length := by
  obtain ⟨hwf, hnums⟩ := addAll_spec calls initTrack 0 WF_initTrack
    (fun c hc => ⟨(hdims c hc).1, (hdims c hc).2.1⟩) tf nums h
  obtain ⟨_, hpgm, _, _, _, hmid, _, hempty⟩ := hwf
  have hn1 : 1 ≤ calls.length := by
    cases calls with
    | nil => exact absurd rfl hne
    | cons c l => simp
  have hnums' : nums = (List.range calls.length).map (fun i => 901 + i) := by
    rw [hnums]
  refine ⟨?_, ?_, ?_, hnums', ?_⟩
  · intro i hi
    have := hmid i (by omega)
    simpa using this
  · simpa using hempty
  · simpa using hpgm
  · rw [hnums']
    have hlt : calls.length - 1 < ((List.range calls.length).map
        (fun i => 901 + i)).length := by
      simp only [List.length_map, List.length_range]
      omega
    rw [List.getD_eq_getElem _ _ hlt]
    simp only [List.getElem_map, List.getElem_range]
    omega

/-- C5 witness: two concrete successful calls on a fresh track. -/
theorem sequential_numbers_witness :
    ([([5], 1, 1), ([6, 7], 2, 2)] : List (List Nat × Nat × Nat)) ≠ [] ∧
    (∀ c ∈ ([([5], 1, 1), ([6, 7], 2, 2)] : List (List Nat × Nat × Nat)),
      c.2.1 ≤ 999 ∧ c.2.2 ≤ 999 ∧ ∀ b ∈ c.1, b < 256) ∧
    ((∀ i, i < ([([5], 1, 1), ([6, 7], 2, 2)] : List (List Nat × Nat × Nat)).length →
      (((addAll initTrack ([([5], 1, 1), ([6, 7], 2, 2)] : List (List Nat × Nat × Nat))).getD (initTrack, [])).1).patNum (7 * i) = some (901 + i) ∧
        (((addAll initTrack ([([5], 1, 1), ([6, 7], 2, 2)] : List (List Nat × Nat × Nat))).getD (initTrack, [])).1).getWord (7 * i) ≠ 0) ∧
    (((addAll initTrack ([([5], 1, 1), ([6, 7], 2, 2)] : List (List Nat × Nat × Nat))).getD (initTrack, [])).1).getWord (7 * ([([5], 1, 1), ([6, 7], 2, 2)] : List (List Nat × Nat × Nat)).length) = 0 ∧
    7 * (([([5], 1, 1), ([6, 7], 2, 2)] : List (List Nat × Nat × Nat)).length + 1) + (((addAll initTrack ([([5], 1, 1), ([6, 7], 2, 2)] : List (List Nat × Nat × Nat))).getD (initTrack, [])).1).pgmInfoEnd = 2048 ∧
    ((addAll initTrack ([([5], 1, 1), ([6, 7], 2, 2)] : List (List Nat × Nat × Nat))).getD (initTrack, [])).2 = (List.range ([([5], 1, 1), ([6, 7], 2, 2)] : List (List Nat × Nat × Nat)).length).map (fun i => 901 + i) ∧
    (((addAll initTrack ([([5], 1, 1), ([6, 7], 2, 2)] : List (List Nat × Nat × Nat))).getD (initTrack, [])).2).getD (([([5], 1, 1), ([6, 7], 2, 2)] : List (List Nat × Nat × Nat)).length - 1) 0 = 900 + ([([5], 1, 1), ([6, 7], 2, 2)] : List (List Nat × Nat × Nat)).length) :=
  ⟨by decide, by decide,
    sequential_numbers ([([5], 1, 1), ([6, 7], 2, 2)] : List (List Nat × Nat × Nat)) (((addAll initTrack ([([5], 1, 1), ([6, 7], 2, 2)] : List (List Nat × Nat × Nat))).getD (initTrack, [])).1) (((addAll initTrack ([([5], 1, 1), ([6, 7], 2, 2)] : List (List Nat × Nat × Nat))).getD (initTrack, [])).2) (by decide) (by decide) rfl⟩

/-- C9: for a decoded binary bitmap of `nrows × nstitches` pixels, the
encoder's output is exactly the byte sequence described by the per-row
procedure — each row's bits preceded by `(4 - nstitches mod 4) mod 4` zero
bits, all rows concatenated, the whole bit string left-padded with zeros to a
multiple of 8 and packed MSB-first, followed by `ceil(nrows / 2)` zero memo
bytes — with the row and stitch counts returned unchanged and total output
length `ceil(nrows * (nstitches + pad) / 8) + ceil(nrows / 2)`. -/
theorem encode_image_spec (imgdata : List Nat) (nrows nstitches : Nat)
    (hpix : imgdata.length = nrows * nstitches) (_hst : 0 < nstitches) :
    encodeImageCore imgdata nrows nstitches =
      (specEncode imgdata nrows nstitches, nrows, nstitches) ∧
    (encodeImageCore imgdata nrows nstitches).1.length =
      (nrows * (nstitches + rowPad nstitches) + 7) / 8 + (nrows + 1) / 2 := by
  have hb := padRows_eq_spec nstitches nrows (pixelBits imgdata)
  constructor
  · rw [encodeImageCore, specEncode]
    rw [hb]
  · rw [encodeImageCore]
    dsimp only
    rw [List.length_append, packBits_length, List.length_append,
      List.length_replicate, List.length_replicate]
    have hlen : (padRows nstitches nrows (pixelBits imgdata)).length =
        nrows * (rowPad nstitches + nstitches) := by
      apply padRows_length
      rw [pixelBits, List.length_map, hpix]
    rw [hlen]
    have hcomm : nrows * (rowPad nstitches + nstitches) =
        nrows * (nstitches + rowPad nstitches) := by ring
    rw [hcomm]
    generalize nrows * (nstitches + rowPad nstitches) = M
    omega

/-- C9 witness on a concrete 2×4 all-dark bitmap. -/
theorem encode_image_spec_witness :
    ([0, 0, 0, 0, 0, 0, 0, 0] : List Nat).length = 2 * 4 ∧ (0 : Nat) < 4 ∧
    (encodeImageCore [0, 0, 0, 0, 0, 0, 0, 0] 2 4 =
      (specEncode [0, 0, 0, 0, 0, 0, 0, 0] 2 4, 2, 4) ∧
     (encodeImageCore [0, 0, 0, 0, 0, 0, 0, 0] 2 4).1.length =
      (2 * (4 + rowPad 4) + 7) / 8 + (2 + 1) / 2) :=
  ⟨by decide, by decide,
    encode_image_spec [0, 0, 0, 0, 0, 0, 0, 0] 2 4 (by decide) (by decide)⟩

/-- C10: `to_bcd(n, w)` always returns exactly `max w (digitcount n)` decimal
digits, each in `[0, 9]`, whose concatenation parses back to `n` — it never
raises and never truncates: with more digits than `w` it returns them all,
and with `w ≥ digitcount n` it returns exactly `w` digits zero-padded on the
left. -/
theorem to_bcd_spec (n w : Nat) :
    (toBcd n w).length = max w (digitCount n) ∧
    (∀ d ∈ toBcd n w, d < 10) ∧
    parseDec (toBcd n w) = n :=
  ⟨toBcd_length n w, toBcd_digit_lt n w, parseDec_toBcd n w⟩

end Img2Track
